import Mathlib

/-!
Verification development for the link-prediction feature-extraction engine.

The engine works on an undirected graph with integer node ids (a node set
plus an adjacency map), an attribute table mapping node ids to real-valued
vectors, and a battery of similarity metrics combined by a single assembler
(`extract_features`) into a 10-component feature vector.  The assembler
transiently removes the queried edge before a shortest-path query and adds
it back on the success path, so it is modelled as a state-passing function
returning both the feature vector and the graph as it stands after the call.
-/

/-- An undirected graph: a finite set of integer node ids and an adjacency
map.  A self-loop at `n` is represented by `n ∈ adj n`.  Symmetry of `adj`
is an invariant of well-formed graphs, stated as a hypothesis where needed. -/
structure Graph where
  nodes : Finset ℤ
  adj : ℤ → Finset ℤ

/-- Edge test `G.has_edge(a,b)`: membership of `b` in the adjacency of `a`. -/
def Graph.hasEdge (g : Graph) (a b : ℤ) : Bool := decide (b ∈ g.adj a)

/-- `G.degree(n)`: number of incident edge ends; a self-loop counts twice,
matching the adjacency-list degree of the source library. -/
def Graph.degree (g : Graph) (n : ℤ) : ℕ :=
  (g.adj n).card + (if n ∈ g.adj n then 1 else 0)

/-- `G.remove_edge(a,b)`: erase `b` from the adjacency of `a` and `a` from
the adjacency of `b`; the node set is unchanged. -/
def Graph.removeEdge (g : Graph) (a b : ℤ) : Graph :=
  { nodes := g.nodes
    adj := fun n =>
      if n = a then (g.adj n).erase b
      else if n = b then (g.adj n).erase a
      else g.adj n }

/-- `G.add_edge(a,b)`: insert `b` into the adjacency of `a` and `a` into the
adjacency of `b`; both endpoints are added to the node set. -/
def Graph.addEdge (g : Graph) (a b : ℤ) : Graph :=
  { nodes := insert a (insert b g.nodes)
    adj := fun n =>
      if n = a then insert b (g.adj n)
      else if n = b then insert a (g.adj n)
      else g.adj n }

/-- Modelled from the library call `nx.common_neighbors(G, a, b)`: the nodes
adjacent to both `a` and `b`, excluding `a` and `b` themselves. -/
def commonNeighbors (g : Graph) (a b : ℤ) : Finset ℤ :=
  ((g.adj a ∩ g.adj b).erase a).erase b

/-- Nodes reachable from `a` by a walk of at most `k` edges. -/
def ball (g : Graph) : ℕ → ℤ → Finset ℤ
  | 0, a => {a}
  | k + 1, a => insert a ((g.adj a).biUnion fun w => ball g k w)

/-- Modelled from the library call `nx.shortest_path_length(G, src, dst)`:
breadth-first edge-count distance; `none` encodes the `NetworkXNoPath`
outcome (the target is not reached within `|nodes|` steps, which for a
well-formed graph is exactly unreachability). -/
def shortest_path_length (g : Graph) (src dst : ℤ) : Option ℕ :=
  (List.range (g.nodes.card + 1)).find? fun k => decide (dst ∈ ball g k src)

/-- A walk in `g` from `a` to `b`: the list records the nodes visited after
`a`, each adjacent to its predecessor, ending at `b`. -/
def isWalk (g : Graph) : ℤ → List ℤ → ℤ → Prop
  | a, [], b => a = b
  | a, x :: xs, b => x ∈ g.adj a ∧ isWalk g x xs b

/-- The attribute table: a partial map from node ids to attribute vectors. -/
abbrev AttrTable := ℤ → Option (List ℝ)

/-- `custom_adamic_adar_index` from the source: sum of `1 / ln(degree(w))`
over the common neighbors `w` of the pair, skipping those of degree ≤ 1. -/
noncomputable def custom_adamic_adar_index (g : Graph) (node1 node2 : ℤ) : ℝ :=
  if commonNeighbors g node1 node2 = ∅ then 0
  else ∑ w in commonNeighbors g node1 node2,
    if 1 < g.degree w then 1 / Real.log (g.degree w) else 0

/-- `custom_resource_allocation_index` from the source: sum of
`1 / degree(w)` over the common neighbors `w`, skipping those of degree 0. -/
noncomputable def custom_resource_allocation_index (g : Graph) (node1 node2 : ℤ) : ℝ :=
  if commonNeighbors g node1 node2 = ∅ then 0
  else ∑ w in commonNeighbors g node1 node2,
    if 0 < g.degree w then 1 / (g.degree w : ℝ) else 0

/-- `custom_jaccard_coefficient` from the source: `|N(a)∩N(b)| / |N(a)∪N(b)|`
on the raw neighbor sets, defined as 0 when the union is empty. -/
noncomputable def custom_jaccard_coefficient (g : Graph) (node1 node2 : ℤ) : ℝ :=
  if (g.adj node1 ∪ g.adj node2).card = 0 then 0
  else ((g.adj node1 ∩ g.adj node2).card : ℝ) / ((g.adj node1 ∪ g.adj node2).card : ℝ)

/-- Dot product of two real vectors (`np.dot` on equal-length vectors). -/
noncomputable def dotList (u v : List ℝ) : ℝ := (List.zipWith (fun x y => x * y) u v).sum

/-- Euclidean norm of a real vector (`np.linalg.norm`). -/
noncomputable def normList (u : List ℝ) : ℝ := Real.sqrt ((u.map fun x => x * x).sum)

/-- `cosine_similarity` from the source: `u·v / (‖u‖ ‖v‖)`, defined as 0
unless the product of the norms is positive. -/
noncomputable def cosine_similarity (vec1 vec2 : List ℝ) : ℝ :=
  if 0 < normList vec1 * normList vec2 then dotList vec1 vec2 / (normList vec1 * normList vec2)
  else 0

/-- Mean of a real vector. -/
noncomputable def listMean (u : List ℝ) : ℝ := u.sum / (u.length : ℝ)

/-- A vector recentered at its mean. -/
noncomputable def centered (u : List ℝ) : List ℝ := u.map fun x => x - listMean u

/-- Sum of products of centered components (the unnormalized covariance). -/
noncomputable def covSum (u v : List ℝ) : ℝ :=
  (List.zipWith (fun x y => x * y) (centered u) (centered v)).sum

/-- Sum of squared deviations from the mean (the unnormalized variance). -/
noncomputable def varSum (u : List ℝ) : ℝ := covSum u u

/-- Modelled from the library call `np.corrcoef(u, v)[0, 1]`: the sample
correlation coefficient; `none` encodes the NaN outcome, which arises
exactly when either vector has zero variance (0/0). -/
noncomputable def np_corrcoef01 (u v : List ℝ) : Option ℝ :=
  if varSum u = 0 ∨ varSum v = 0 then none
  else some (covSum u v / Real.sqrt (varSum u * varSum v))

/-- The correlation feature of the source: `corr if not np.isnan(corr) else 0`. -/
noncomputable def pearson_corr_feature (u v : List ℝ) : ℝ :=
  match np_corrcoef01 u v with
  | some c => c
  | none => 0

/-- The matching-non-zero-features count of the source:
`np.logical_and(u != 0, v != 0).sum()`. -/
noncomputable def matching_nonzero_count (u v : List ℝ) : ℝ :=
  (List.zipWith (fun x y => if x ≠ 0 ∧ y ≠ 0 then (1 : ℝ) else 0) u v).sum

/-- The shortest-path block of `extract_features`: if the queried edge is
present it is removed, the distance is measured, and the edge is added back
only on the success path — on the no-path outcome the exception skips the
restore and is caught one line below, so the edge stays removed.  Returns
the feature value (`-1` encodes no path) and the graph as left behind. -/
noncomputable def spl_block (g : Graph) (node1 node2 : ℤ) : ℝ × Graph :=
  if g.hasEdge node1 node2 then
    match shortest_path_length (g.removeEdge node1 node2) node1 node2 with
    | some d => ((d : ℝ), (g.removeEdge node1 node2).addEdge node1 node2)
    | none => ((-1 : ℝ), g.removeEdge node1 node2)
  else
    match shortest_path_length g node1 node2 with
    | some d => ((d : ℝ), g)
    | none => ((-1 : ℝ), g)

/-- The attribute-similarity block of `extract_features`: cosine similarity,
correlation and matching-non-zero count when both nodes have attribute
vectors, and `(0, 0, 0)` otherwise. -/
noncomputable def attr_block (attrs : AttrTable) (node1 node2 : ℤ) : ℝ × ℝ × ℝ :=
  match attrs node1, attrs node2 with
  | some u, some v => (cosine_similarity u v, pearson_corr_feature u v, matching_nonzero_count u v)
  | _, _ => (0, 0, 0)

/-- The shared-neighbors-ratio block of `extract_features`, computed on the
graph as it stands after the shortest-path block:
`|N(a)∩N(b)| / (|N(a)| + |N(b)| − |N(a)∩N(b)|)`, 0 when both sets are empty. -/
noncomputable def shared_neighbors_ratio (g : Graph) (node1 node2 : ℤ) : ℝ :=
  if 0 < (g.adj node1).card + (g.adj node2).card then
    ((g.adj node1 ∩ g.adj node2).card : ℝ) /
      (((g.adj node1).card : ℝ) + ((g.adj node2).card : ℝ) - ((g.adj node1 ∩ g.adj node2).card : ℝ))
  else 0

/-- `extract_features` from the source.  If either node is absent from the
graph it returns ten zeros and leaves the graph alone.  Otherwise it emits,
in order: common-neighbor count, Jaccard coefficient, preferential
attachment, Adamic–Adar, resource allocation, shortest-path length (with the
queried edge transiently excluded), the three attribute features, and the
shared-neighbors ratio, the last computed on the graph left behind by the
shortest-path block.  The second component is that final graph state. -/
noncomputable def extract_features (g : Graph) (attrs : AttrTable) (node1 node2 : ℤ) :
    List ℝ × Graph :=
  if node1 ∉ g.nodes ∨ node2 ∉ g.nodes then (List.replicate 10 0, g)
  else
    ([((commonNeighbors g node1 node2).card : ℝ),
      custom_jaccard_coefficient g node1 node2,
      (g.degree node1 : ℝ) * (g.degree node2 : ℝ),
      custom_adamic_adar_index g node1 node2,
      custom_resource_allocation_index g node1 node2,
      (spl_block g node1 node2).1,
      (attr_block attrs node1 node2).1,
      (attr_block attrs node1 node2).2.1,
      (attr_block attrs node1 node2).2.2,
      shared_neighbors_ratio (spl_block g node1 node2).2 node1 node2],
     (spl_block g node1 node2).2)

/-- The empty attribute table, used as a concrete input. -/
def attrs0 : AttrTable := fun _ => none

/-- Concrete graph: nodes `{1, 2}` with the single edge `(1, 2)`. -/
def pathG2 : Graph :=
  { nodes := {1, 2}
    adj := fun n => if n = 1 then {2} else if n = 2 then {1} else ∅ }

/-- Concrete graph: the path `1 − 2 − 3`. -/
def pathG3 : Graph :=
  { nodes := {1, 2, 3}
    adj := fun n => if n = 1 then {2} else if n = 2 then {1, 3} else if n = 3 then {2} else ∅ }

/-- Concrete graph: the triangle on `{1, 2, 3}`. -/
def triangleG : Graph :=
  { nodes := {1, 2, 3}
    adj := fun n =>
      if n = 1 then {2, 3} else if n = 2 then {1, 3} else if n = 3 then {1, 2} else ∅ }

/-- Concrete graph: nodes `{1, 2}`, a self-loop at `1` and the edge `(1, 2)`. -/
def loopG : Graph :=
  { nodes := {1, 2}
    adj := fun n => if n = 1 then {1, 2} else if n = 2 then {1} else ∅ }

/-! ### Pointwise adjacency lemmas for edge removal, insertion and restoration -/

lemma mem_removeEdge_adj (g : Graph) (a b x y : ℤ) :
    y ∈ (g.removeEdge a b).adj x ↔
      y ∈ g.adj x ∧ ¬((x = a ∧ y = b) ∨ (x = b ∧ y = a)) := by
  simp only [Graph.removeEdge]
  split_ifs with h1 h2
  · subst h1
    by_cases hab : x = b
    · subst hab
      simp only [Finset.mem_erase, ne_eq, true_and]
      tauto
    · simp only [Finset.mem_erase, ne_eq, true_and, hab, false_and, or_false]
      tauto
  · subst h2
    simp only [Finset.mem_erase, ne_eq, h1, false_and, true_and, false_or]
    tauto
  · simp only [h1, h2, false_and, or_self, not_false_eq_true, and_true]

lemma mem_addEdge_adj (g : Graph) (a b x y : ℤ) :
    y ∈ (g.addEdge a b).adj x ↔
      y ∈ g.adj x ∨ (x = a ∧ y = b) ∨ (x = b ∧ y = a) := by
  simp only [Graph.addEdge]
  split_ifs with h1 h2
  · subst h1
    by_cases hab : x = b
    · subst hab
      simp only [Finset.mem_insert, true_and]
      tauto
    · simp only [Finset.mem_insert, true_and, hab, false_and, or_false]
      tauto
  · subst h2
    simp only [Finset.mem_insert, h1, false_and, true_and, false_or]
    tauto
  · simp only [h1, h2, false_and, or_self, or_false]

lemma restore_adj (g : Graph) (a b : ℤ) (hab : b ∈ g.adj a) (hba : a ∈ g.adj b) (x : ℤ) :
    ((g.removeEdge a b).addEdge a b).adj x = g.adj x := by
  ext y
  rw [mem_addEdge_adj]
  simp only [mem_removeEdge_adj]
  constructor
  · rintro (⟨hm, _⟩ | ⟨rfl, rfl⟩ | ⟨rfl, rfl⟩)
    · exact hm
    · exact hab
    · exact hba
  · intro hm
    by_cases hx : (x = a ∧ y = b) ∨ (x = b ∧ y = a)
    · exact Or.inr hx
    · exact Or.inl ⟨hm, hx⟩

lemma removeEdge_adj_comm (g : Graph) (a b n : ℤ) :
    (g.removeEdge a b).adj n = (g.removeEdge b a).adj n := by
  ext y
  rw [mem_removeEdge_adj, mem_removeEdge_adj]
  tauto

lemma restore_adj_comm (g : Graph) (a b n : ℤ) :
    ((g.removeEdge a b).addEdge a b).adj n = ((g.removeEdge b a).addEdge b a).adj n := by
  ext y
  rw [mem_addEdge_adj, mem_addEdge_adj]
  simp only [mem_removeEdge_adj]
  tauto

lemma removeEdge_symm {g : Graph} (hSym : ∀ x y, y ∈ g.adj x ↔ x ∈ g.adj y) (a b : ℤ) :
    ∀ x y, y ∈ (g.removeEdge a b).adj x ↔ x ∈ (g.removeEdge a b).adj y := by
  intro x y
  rw [mem_removeEdge_adj, mem_removeEdge_adj, hSym x y]
  tauto

lemma hasEdge_symm {g : Graph} (hSym : ∀ x y, y ∈ g.adj x ↔ x ∈ g.adj y) (a b : ℤ) :
    g.hasEdge a b = g.hasEdge b a := by
  unfold Graph.hasEdge
  rw [decide_eq_decide]
  exact hSym a b

/-! ### Walks, reachability balls, and the breadth-first distance -/

lemma adjBall_congr {g1 g2 : Graph} (h : ∀ n, g1.adj n = g2.adj n) :
    ∀ (k : ℕ) (a : ℤ), ball g1 k a = ball g2 k a := by
  intro k
  induction k with
  | zero => intro a; rfl
  | succ k ih =>
    intro a
    simp only [ball]
    rw [h a]
    congr 1
    exact Finset.biUnion_congr rfl fun w _ => ih w

lemma mem_ball {g : Graph} :
    ∀ (k : ℕ) (a b : ℤ), b ∈ ball g k a ↔ ∃ l, isWalk g a l b ∧ l.length ≤ k := by
  intro k
  induction k with
  | zero =>
    intro a b
    simp only [ball, Finset.mem_singleton]
    constructor
    · rintro rfl
      exact ⟨[], rfl, by simp⟩
    · rintro ⟨l, hw, hl⟩
      cases l with
      | nil => simp only [isWalk] at hw; exact hw.symm
      | cons x xs => simp at hl
  | succ k ih =>
    intro a b
    simp only [ball, Finset.mem_insert, Finset.mem_biUnion]
    constructor
    · rintro (rfl | ⟨w, hw, hb⟩)
      · exact ⟨[], rfl, by simp⟩
      · obtain ⟨l, hwalk, hl⟩ := (ih w b).mp hb
        exact ⟨w :: l, ⟨hw, hwalk⟩, by simpa using Nat.succ_le_succ hl⟩
    · rintro ⟨l, hwalk, hl⟩
      cases l with
      | nil => simp only [isWalk] at hwalk; exact Or.inl hwalk.symm
      | cons x xs =>
        simp only [isWalk] at hwalk
        obtain ⟨hx, hrest⟩ := hwalk
        refine Or.inr ⟨x, hx, (ih x b).mpr ⟨xs, hrest, ?_⟩⟩
        simpa using Nat.le_of_succ_le_succ (by simpa using hl)

lemma isWalk_append {g : Graph} :
    ∀ (l : List ℤ) (a b c : ℤ), isWalk g a l b → c ∈ g.adj b → isWalk g a (l ++ [c]) c := by
  intro l
  induction l with
  | nil =>
    intro a b c hw hc
    simp only [isWalk] at hw
    subst hw
    exact ⟨hc, rfl⟩
  | cons x xs ih =>
    intro a b c hw hc
    simp only [isWalk] at hw ⊢
    exact ⟨hw.1, ih x b c hw.2 hc⟩

lemma isWalk_reverse {g : Graph} (hSym : ∀ x y, y ∈ g.adj x ↔ x ∈ g.adj y) :
    ∀ (l : List ℤ) (a b : ℤ), isWalk g a l b → ∃ m, isWalk g b m a ∧ m.length = l.length := by
  intro l
  induction l with
  | nil =>
    intro a b hw
    simp only [isWalk] at hw
    subst hw
    exact ⟨[], rfl, rfl⟩
  | cons x xs ih =>
    intro a b hw
    simp only [isWalk] at hw
    obtain ⟨m, hm, hlen⟩ := ih x b hw.2
    exact ⟨m ++ [a], isWalk_append m b x a hm ((hSym a x).mp hw.1), by simp [hlen]⟩

lemma mem_ball_symm {g : Graph} (hSym : ∀ x y, y ∈ g.adj x ↔ x ∈ g.adj y)
    (k : ℕ) (a b : ℤ) : b ∈ ball g k a ↔ a ∈ ball g k b := by
  constructor <;> intro h
  · obtain ⟨l, hw, hl⟩ := (mem_ball k a b).mp h
    obtain ⟨m, hm, hlen⟩ := isWalk_reverse hSym l a b hw
    exact (mem_ball k b a).mpr ⟨m, hm, le_of_eq_of_le hlen hl⟩
  · obtain ⟨l, hw, hl⟩ := (mem_ball k b a).mp h
    obtain ⟨m, hm, hlen⟩ := isWalk_reverse hSym l b a hw
    exact (mem_ball k a b).mpr ⟨m, hm, le_of_eq_of_le hlen hl⟩

lemma shortest_path_length_congr {g1 g2 : Graph} (hadj : ∀ n, g1.adj n = g2.adj n)
    (hn : g1.nodes = g2.nodes) (a b : ℤ) :
    shortest_path_length g1 a b = shortest_path_length g2 a b := by
  unfold shortest_path_length
  rw [hn]
  congr 1
  funext k
  rw [decide_eq_decide, adjBall_congr hadj k a]

lemma shortest_path_length_symm {g : Graph} (hSym : ∀ x y, y ∈ g.adj x ↔ x ∈ g.adj y)
    (a b : ℤ) : shortest_path_length g a b = shortest_path_length g b a := by
  unfold shortest_path_length
  congr 1
  funext k
  rw [decide_eq_decide]
  exact mem_ball_symm hSym k a b

lemma shortest_path_length_self (g : Graph) (n : ℤ) :
    shortest_path_length g n n = some 0 := by
  unfold shortest_path_length
  rw [List.range_succ_eq_map]
  refine List.find?_cons_of_pos _ ?_
  simp [ball]

/-! ### Symmetry and congruence of the individual metrics -/

lemma commonNeighbors_symm (g : Graph) (a b : ℤ) :
    commonNeighbors g a b = commonNeighbors g b a := by
  unfold commonNeighbors
  ext w
  simp only [Finset.mem_erase, Finset.mem_inter]
  tauto

lemma custom_jaccard_coefficient_symm (g : Graph) (a b : ℤ) :
    custom_jaccard_coefficient g a b = custom_jaccard_coefficient g b a := by
  unfold custom_jaccard_coefficient
  rw [Finset.union_comm, Finset.inter_comm]

lemma custom_adamic_adar_index_symm (g : Graph) (a b : ℤ) :
    custom_adamic_adar_index g a b = custom_adamic_adar_index g b a := by
  unfold custom_adamic_adar_index
  rw [commonNeighbors_symm]

lemma custom_resource_allocation_index_symm (g : Graph) (a b : ℤ) :
    custom_resource_allocation_index g a b = custom_resource_allocation_index g b a := by
  unfold custom_resource_allocation_index
  rw [commonNeighbors_symm]

lemma dotList_symm (u v : List ℝ) : dotList u v = dotList v u := by
  unfold dotList
  rw [List.zipWith_comm_of_comm (fun x y : ℝ => x * y) mul_comm u v]

lemma cosine_similarity_symm (u v : List ℝ) :
    cosine_similarity u v = cosine_similarity v u := by
  unfold cosine_similarity
  rw [dotList_symm, mul_comm (normList u) (normList v)]

lemma covSum_symm (u v : List ℝ) : covSum u v = covSum v u := by
  unfold covSum
  rw [List.zipWith_comm_of_comm (fun x y : ℝ => x * y) mul_comm]

lemma pearson_corr_feature_symm (u v : List ℝ) :
    pearson_corr_feature u v = pearson_corr_feature v u := by
  unfold pearson_corr_feature np_corrcoef01
  by_cases h : varSum u = 0 ∨ varSum v = 0
  · rw [if_pos h, if_pos (Or.symm h)]
  · rw [if_neg h, if_neg fun hc => h (Or.symm hc)]
    simp only
    rw [covSum_symm u v, mul_comm (varSum u) (varSum v)]

lemma matching_nonzero_count_symm (u v : List ℝ) :
    matching_nonzero_count u v = matching_nonzero_count v u := by
  unfold matching_nonzero_count
  rw [List.zipWith_comm_of_comm (fun x y : ℝ => if x ≠ 0 ∧ y ≠ 0 then (1 : ℝ) else 0)
    (fun x y => by by_cases hx : x = 0 <;> by_cases hy : y = 0 <;> simp [hx, hy]) u v]

lemma attr_block_symm (attrs : AttrTable) (a b : ℤ) :
    attr_block attrs a b = attr_block attrs b a := by
  unfold attr_block
  cases ha : attrs a with
  | none => cases hb : attrs b <;> rfl
  | some u =>
    cases hb : attrs b with
    | none => rfl
    | some v =>
      show (cosine_similarity u v, pearson_corr_feature u v, matching_nonzero_count u v)
          = (cosine_similarity v u, pearson_corr_feature v u, matching_nonzero_count v u)
      rw [cosine_similarity_symm, pearson_corr_feature_symm, matching_nonzero_count_symm]

lemma shared_neighbors_ratio_congr {g1 g2 : Graph} (h : ∀ n, g1.adj n = g2.adj n)
    (a b : ℤ) : shared_neighbors_ratio g1 a b = shared_neighbors_ratio g2 a b := by
  unfold shared_neighbors_ratio
  rw [h a, h b]

lemma shared_neighbors_ratio_symm (g : Graph) (a b : ℤ) :
    shared_neighbors_ratio g a b = shared_neighbors_ratio g b a := by
  unfold shared_neighbors_ratio
  rw [Finset.inter_comm, Nat.add_comm ((g.adj a).card) ((g.adj b).card),
    add_comm ((g.adj a).card : ℝ) ((g.adj b).card : ℝ)]

lemma spl_block_symm {g : Graph} (hSym : ∀ x y, y ∈ g.adj x ↔ x ∈ g.adj y) (a b : ℤ) :
    (spl_block g a b).1 = (spl_block g b a).1 ∧
      ∀ n, (spl_block g a b).2.adj n = (spl_block g b a).2.adj n := by
  unfold spl_block
  rw [hasEdge_symm hSym a b]
  cases hE : g.hasEdge b a with
  | false =>
    simp only [hE, Bool.false_eq_true, if_false]
    rw [shortest_path_length_symm hSym a b]
    exact ⟨rfl, fun n => rfl⟩
  | true =>
    simp only [hE, if_true]
    have hd : shortest_path_length (g.removeEdge a b) a b
        = shortest_path_length (g.removeEdge b a) b a := by
      calc shortest_path_length (g.removeEdge a b) a b
          = shortest_path_length (g.removeEdge b a) a b :=
            shortest_path_length_congr (removeEdge_adj_comm g a b) rfl a b
        _ = shortest_path_length (g.removeEdge b a) b a :=
            shortest_path_length_symm (removeEdge_symm hSym b a) a b
    rw [hd]
    cases hsp : shortest_path_length (g.removeEdge b a) b a with
    | none => exact ⟨rfl, fun n => removeEdge_adj_comm g a b n⟩
    | some d => exact ⟨rfl, fun n => restore_adj_comm g a b n⟩

/-! ### Unfolding lemmas for the Adamic–Adar and resource-allocation sums -/

lemma custom_adamic_adar_index_eq_sum_filter (g : Graph) (a b : ℤ) :
    custom_adamic_adar_index g a b =
      ∑ w in (commonNeighbors g a b).filter (fun w => 1 < g.degree w),
        1 / Real.log (g.degree w) := by
  unfold custom_adamic_adar_index
  rw [Finset.sum_filter]
  by_cases h : commonNeighbors g a b = ∅
  · rw [if_pos h, h, Finset.sum_empty]
  · rw [if_neg h]

lemma custom_resource_allocation_index_eq_sum_filter (g : Graph) (a b : ℤ) :
    custom_resource_allocation_index g a b =
      ∑ w in (commonNeighbors g a b).filter (fun w => 0 < g.degree w),
        1 / (g.degree w : ℝ) := by
  unfold custom_resource_allocation_index
  rw [Finset.sum_filter]
  by_cases h : commonNeighbors g a b = ∅
  · rw [if_pos h, h, Finset.sum_empty]
  · rw [if_neg h]

/-! ### Adjacency shapes and symmetry of the concrete graphs -/

lemma mem_pathG2_adj (x y : ℤ) :
    y ∈ pathG2.adj x ↔ (x = 1 ∧ y = 2) ∨ (x = 2 ∧ y = 1) := by
  show y ∈ (if x = 1 then ({2} : Finset ℤ) else if x = 2 then {1} else ∅) ↔ _
  split_ifs with h1 h2 <;> simp_all

lemma pathG2_symm : ∀ x y : ℤ, y ∈ pathG2.adj x ↔ x ∈ pathG2.adj y := by
  intro x y
  rw [mem_pathG2_adj, mem_pathG2_adj]
  tauto

lemma mem_pathG3_adj (x y : ℤ) :
    y ∈ pathG3.adj x ↔
      (x = 1 ∧ y = 2) ∨ (x = 2 ∧ (y = 1 ∨ y = 3)) ∨ (x = 3 ∧ y = 2) := by
  show y ∈ (if x = 1 then ({2} : Finset ℤ) else if x = 2 then {1, 3}
      else if x = 3 then {2} else ∅) ↔ _
  split_ifs with h1 h2 h3 <;> simp_all

lemma pathG3_symm : ∀ x y : ℤ, y ∈ pathG3.adj x ↔ x ∈ pathG3.adj y := by
  intro x y
  rw [mem_pathG3_adj, mem_pathG3_adj]
  constructor
  · rintro (⟨rfl, rfl⟩ | ⟨rfl, rfl | rfl⟩ | ⟨rfl, rfl⟩) <;> norm_num
  · rintro (⟨rfl, rfl⟩ | ⟨rfl, rfl | rfl⟩ | ⟨rfl, rfl⟩) <;> norm_num

lemma mem_triangleG_adj (x y : ℤ) :
    y ∈ triangleG.adj x ↔
      (x = 1 ∧ (y = 2 ∨ y = 3)) ∨ (x = 2 ∧ (y = 1 ∨ y = 3)) ∨ (x = 3 ∧ (y = 1 ∨ y = 2)) := by
  show y ∈ (if x = 1 then ({2, 3} : Finset ℤ) else if x = 2 then {1, 3}
      else if x = 3 then {1, 2} else ∅) ↔ _
  split_ifs with h1 h2 h3 <;> simp_all

lemma triangleG_symm : ∀ x y : ℤ, y ∈ triangleG.adj x ↔ x ∈ triangleG.adj y := by
  intro x y
  rw [mem_triangleG_adj, mem_triangleG_adj]
  constructor
  · rintro (⟨rfl, rfl | rfl⟩ | ⟨rfl, rfl | rfl⟩ | ⟨rfl, rfl | rfl⟩) <;> norm_num
  · rintro (⟨rfl, rfl | rfl⟩ | ⟨rfl, rfl | rfl⟩ | ⟨rfl, rfl | rfl⟩) <;> norm_num

/-- The attribute block collapses to zeros when either vector is missing. -/
lemma attr_block_none {attrs : AttrTable} {a b : ℤ} (h : attrs a = none ∨ attrs b = none) :
    attr_block attrs a b = (0, 0, 0) := by
  unfold attr_block
  rcases h with h | h
  · rw [h]
  · rw [h]
    cases attrs a <;> rfl

/-- A concrete attribute table used by witnesses: vectors for nodes 1 and 2. -/
def attrsW : AttrTable :=
  fun n => if n = 1 then some [0, 1] else if n = 2 then some [1, 0] else none

/-! ### The claims -/

/-- C1 (code bug): the spec requires the transiently removed edge to be
restored on every exit path of `extract`, including the no-path outcome.
The code adds the edge back only on the success path, so on the graph with
the single edge `(1,2)` — whose removal disconnects the pair — the edge is
gone after the call: `has_edge(1,2)` is true before and false after. -/
theorem C1_restore_bug :
    pathG2.hasEdge 1 2 = true
    ∧ (extract_features pathG2 attrs0 1 2).2.hasEdge 1 2 = false :=
  ⟨by decide, by decide⟩

/-- C2: `extract` always returns a vector of exactly 10 components, and when
either queried id is absent from the graph it returns the all-zero vector. -/
theorem C2_total_and_absent_zero (g : Graph) (attrs : AttrTable) (a b : ℤ) :
    (extract_features g attrs a b).1.length = 10
    ∧ ((a ∉ g.nodes ∨ b ∉ g.nodes) →
        (extract_features g attrs a b).1 = List.replicate 10 0) := by
  unfold extract_features
  by_cases h : a ∉ g.nodes ∨ b ∉ g.nodes
  · rw [if_pos h]
    exact ⟨by simp, fun _ => rfl⟩
  · rw [if_neg h]
    exact ⟨rfl, fun hc => absurd hc h⟩

/-- Witness for C2 at a concrete absent node. -/
theorem C2_witness :
    ((99 : ℤ) ∉ pathG2.nodes)
    ∧ (extract_features pathG2 attrs0 1 99).1 = List.replicate 10 0 :=
  ⟨by decide, (C2_total_and_absent_zero pathG2 attrs0 1 99).2 (Or.inr (by decide))⟩

/-- C6: Adamic–Adar sums `1/ln(degree w)` over exactly the common neighbors
of degree > 1 (so a common neighbor of degree ≤ 1 contributes 0); on the
two-node graph the sole common neighbor of the pair `(1,1)` has degree 1 and
the index is 0, and on the path `1−2−3` the sole common neighbor of `(1,3)`
has degree 2 and the index is `1/ln 2`. -/
theorem C6_adamic_adar_exclusion :
    (∀ (g : Graph) (a b : ℤ),
        custom_adamic_adar_index g a b =
          ∑ w in (commonNeighbors g a b).filter (fun w => 1 < g.degree w),
            1 / Real.log (g.degree w))
    ∧ custom_adamic_adar_index pathG2 1 1 = 0
    ∧ custom_adamic_adar_index pathG3 1 3 = 1 / Real.log 2 := by
  refine ⟨custom_adamic_adar_index_eq_sum_filter, ?_, ?_⟩
  · rw [custom_adamic_adar_index_eq_sum_filter]
    have h1 : (commonNeighbors pathG2 1 1).filter (fun w => 1 < pathG2.degree w) = ∅ := by
      decide
    rw [h1, Finset.sum_empty]
  · rw [custom_adamic_adar_index_eq_sum_filter]
    have h1 : (commonNeighbors pathG3 1 3).filter (fun w => 1 < pathG3.degree w) = {2} := by
      decide
    rw [h1, Finset.sum_singleton]
    have h2 : pathG3.degree 2 = 2 := by decide
    rw [h2]
    norm_num

/-- C7: with both nodes in the graph but an attribute vector missing, the
three attribute components are 0, while every other component is computed
from the graph exactly as it would be under any other attribute table. -/
theorem C7_attr_fallback (g : Graph) (attrs : AttrTable) (a b : ℤ)
    (ha : a ∈ g.nodes) (hb : b ∈ g.nodes) (habs : attrs a = none ∨ attrs b = none) :
    (extract_features g attrs a b).1.getD 6 0 = 0
    ∧ (extract_features g attrs a b).1.getD 7 0 = 0
    ∧ (extract_features g attrs a b).1.getD 8 0 = 0
    ∧ ∀ (attrs2 : AttrTable) (i : ℕ), i ≠ 6 → i ≠ 7 → i ≠ 8 →
        (extract_features g attrs a b).1.getD i 0
          = (extract_features g attrs2 a b).1.getD i 0 := by
  have hguard : ¬(a ∉ g.nodes ∨ b ∉ g.nodes) := by simp [ha, hb]
  refine ⟨?_, ?_, ?_, ?_⟩
  · unfold extract_features
    rw [if_neg hguard, attr_block_none habs]
    rfl
  · unfold extract_features
    rw [if_neg hguard, attr_block_none habs]
    rfl
  · unfold extract_features
    rw [if_neg hguard, attr_block_none habs]
    rfl
  · intro attrs2 i h6 h7 h8
    unfold extract_features
    rw [if_neg hguard, if_neg hguard]
    rcases i with _|_|_|_|_|_|_|_|_|_|n
    · rfl
    · rfl
    · rfl
    · rfl
    · rfl
    · rfl
    · exact absurd rfl h6
    · exact absurd rfl h7
    · exact absurd rfl h8
    · rfl
    · rfl

/-- Witness for C7 at a concrete graph with an empty attribute table. -/
theorem C7_witness :
    attrs0 1 = none
    ∧ (extract_features pathG2 attrs0 1 2).1.getD 6 0 = 0
    ∧ (extract_features pathG2 attrs0 1 2).1.getD 7 0 = 0
    ∧ (extract_features pathG2 attrs0 1 2).1.getD 8 0 = 0
    ∧ (extract_features pathG2 attrs0 1 2).1.getD 0 0
        = (extract_features pathG2 attrsW 1 2).1.getD 0 0 := by
  have h := C7_attr_fallback pathG2 attrs0 1 2 (by decide) (by decide) (Or.inl rfl)
  exact ⟨rfl, h.1, h.2.1, h.2.2.1, h.2.2.2 attrsW 0 (by decide) (by decide) (by decide)⟩

/-- C8: the correlation component maps the undefined (NaN) outcome — which
occurs exactly when either attribute vector has zero variance — to 0, and is
the standard sample correlation coefficient otherwise. -/
theorem C8_pearson_no_nan (g : Graph) (attrs : AttrTable) (a b : ℤ) (u v : List ℝ)
    (ha : a ∈ g.nodes) (hb : b ∈ g.nodes)
    (hu : attrs a = some u) (hv : attrs b = some v) :
    (extract_features g attrs a b).1.getD 7 0 =
      if varSum u = 0 ∨ varSum v = 0 then 0
      else covSum u v / Real.sqrt (varSum u * varSum v) := by
  unfold extract_features
  rw [if_neg (by simp [ha, hb])]
  show (attr_block attrs a b).2.1 = _
  unfold attr_block
  rw [hu, hv]
  show pearson_corr_feature u v = _
  unfold pearson_corr_feature np_corrcoef01
  by_cases h : varSum u = 0 ∨ varSum v = 0
  · rw [if_pos h, if_pos h]
  · rw [if_neg h, if_neg h]

/-- Witness for C8 at concrete attribute vectors. -/
theorem C8_witness :
    attrsW 1 = some [0, 1] ∧ attrsW 2 = some [1, 0]
    ∧ (extract_features pathG2 attrsW 1 2).1.getD 7 0 =
        if varSum [0, 1] = 0 ∨ varSum [1, 0] = 0 then 0
        else covSum [0, 1] [1, 0] / Real.sqrt (varSum [0, 1] * varSum [1, 0]) :=
  ⟨rfl, rfl,
    C8_pearson_no_nan pathG2 attrsW 1 2 [0, 1] [1, 0] (by decide) (by decide) rfl rfl⟩

/-- C9: querying a pair `(n,n)` for a present node with no self-loop gives a
10-component vector whose shortest-path component is 0, not the sentinel. -/
theorem C9_self_pair (g : Graph) (attrs : AttrTable) (n : ℤ)
    (hn : n ∈ g.nodes) (hloop : g.hasEdge n n = false) :
    (extract_features g attrs n n).1.length = 10
    ∧ (extract_features g attrs n n).1.getD 5 0 = 0 := by
  unfold extract_features
  rw [if_neg (by simp [hn])]
  have hspl : spl_block g n n = (((0 : ℕ) : ℝ), g) := by
    unfold spl_block
    rw [hloop, if_neg (by simp : ¬(false = true)), shortest_path_length_self g n]
  refine ⟨rfl, ?_⟩
  show (spl_block g n n).1 = 0
  rw [hspl]
  norm_num

/-- Witness for C9 at a concrete node. -/
theorem C9_witness :
    ((1 : ℤ) ∈ pathG2.nodes) ∧ pathG2.hasEdge 1 1 = false
    ∧ (extract_features pathG2 attrs0 1 1).1.length = 10
    ∧ (extract_features pathG2 attrs0 1 1).1.getD 5 0 = 0 := by
  have h := C9_self_pair pathG2 attrs0 1 (by decide) (by decide)
  exact ⟨by decide, by decide, h.1, h.2⟩

/-- C10: in a symmetric graph every common neighbor of a pair of distinct
nodes is adjacent to both, hence has degree at least 2, so the degree
filters of Adamic–Adar and resource allocation exclude nothing for distinct
pairs: both indices equal their unfiltered sums. -/
theorem C10_filters_vacuous (g : Graph) (a b : ℤ)
    (hSym : ∀ x y, y ∈ g.adj x ↔ x ∈ g.adj y) (hab : a ≠ b) :
    (∀ w ∈ commonNeighbors g a b, 2 ≤ g.degree w)
    ∧ custom_adamic_adar_index g a b =
        ∑ w in commonNeighbors g a b, 1 / Real.log (g.degree w)
    ∧ custom_resource_allocation_index g a b =
        ∑ w in commonNeighbors g a b, 1 / (g.degree w : ℝ) := by
  have hdeg : ∀ w ∈ commonNeighbors g a b, 2 ≤ g.degree w := by
    intro w hw
    unfold commonNeighbors at hw
    rw [Finset.mem_erase, Finset.mem_erase, Finset.mem_inter] at hw
    obtain ⟨hwb, hwa, hwA, hwB⟩ := hw
    have hsub : ({a, b} : Finset ℤ) ⊆ g.adj w := by
      intro z hz
      rcases Finset.mem_insert.mp hz with rfl | hz
      · exact (hSym z w).mp hwA
      · rw [Finset.mem_singleton] at hz
        subst hz
        exact (hSym z w).mp hwB
    have h2 : 2 ≤ (g.adj w).card := by
      have hc := Finset.card_le_card hsub
      rwa [Finset.card_pair hab] at hc
    exact le_trans h2 (Nat.le_add_right _ _)
  refine ⟨hdeg, ?_, ?_⟩
  · rw [custom_adamic_adar_index_eq_sum_filter,
      Finset.filter_true_of_mem (fun w hw => by have := hdeg w hw; omega)]
  · rw [custom_resource_allocation_index_eq_sum_filter,
      Finset.filter_true_of_mem (fun w hw => by have := hdeg w hw; omega)]

/-- Witness for C10 on the path graph with the distinct pair `(1,3)`. -/
theorem C10_witness :
    ((1 : ℤ) ≠ 3)
    ∧ (∀ w ∈ commonNeighbors pathG3 1 3, 2 ≤ pathG3.degree w)
    ∧ custom_adamic_adar_index pathG3 1 3 =
        ∑ w in commonNeighbors pathG3 1 3, 1 / Real.log (pathG3.degree w) := by
  have h := C10_filters_vacuous pathG3 1 3 pathG3_symm (by decide)
  exact ⟨by decide, h.1, h.2.1⟩

/-- The value the shortest-path feature encodes for a given graph and pair:
the breadth-first distance, with the sentinel `-1` for the no-path case. -/
noncomputable def spl_feature_val (g : Graph) (a b : ℤ) : ℝ :=
  match shortest_path_length g a b with
  | some d => (d : ℝ)
  | none => -1

lemma spl_block_fst (g : Graph) (a b : ℤ) :
    (spl_block g a b).1 =
      spl_feature_val (if g.hasEdge a b then g.removeEdge a b else g) a b := by
  unfold spl_block spl_feature_val
  cases hE : g.hasEdge a b with
  | false =>
    simp only [hE, Bool.false_eq_true, if_false]
    cases shortest_path_length g a b <;> rfl
  | true =>
    simp only [hE, if_true]
    cases shortest_path_length (g.removeEdge a b) a b <;> rfl

/-- C3: the shortest-path component is measured on the graph with exactly
the queried edge excluded when that edge exists, and on the unmodified graph
otherwise; removing an edge removes exactly that one unordered pair; and on
the triangle the query `(1,3)` reports distance 2, not 1. -/
theorem C3_leakage_safe :
    (∀ (g : Graph) (attrs : AttrTable) (a b : ℤ), a ∈ g.nodes → b ∈ g.nodes →
        (extract_features g attrs a b).1.getD 5 0 =
          spl_feature_val (if g.hasEdge a b then g.removeEdge a b else g) a b)
    ∧ (∀ (g : Graph) (a b x y : ℤ),
        (g.removeEdge a b).hasEdge x y = true ↔
          (g.hasEdge x y = true ∧ ¬((x = a ∧ y = b) ∨ (x = b ∧ y = a))))
    ∧ (extract_features triangleG attrs0 1 3).1.getD 5 0 = 2 := by
  have hmain : ∀ (g : Graph) (attrs : AttrTable) (a b : ℤ), a ∈ g.nodes → b ∈ g.nodes →
      (extract_features g attrs a b).1.getD 5 0 =
        spl_feature_val (if g.hasEdge a b then g.removeEdge a b else g) a b := by
    intro g attrs a b ha hb
    unfold extract_features
    rw [if_neg (by simp [ha, hb])]
    show (spl_block g a b).1 = _
    exact spl_block_fst g a b
  refine ⟨hmain, ?_, ?_⟩
  · intro g a b x y
    simp only [Graph.hasEdge, decide_eq_true_eq]
    exact mem_removeEdge_adj g a b x y
  · rw [hmain triangleG attrs0 1 3 (by decide) (by decide),
      (by decide : triangleG.hasEdge 1 3 = true), if_pos rfl]
    unfold spl_feature_val
    rw [(by decide : shortest_path_length (triangleG.removeEdge 1 3) 1 3 = some 2)]
    show ((2 : ℕ) : ℝ) = 2
    norm_num

/-- Witness for C3, applying the quantified part at the triangle. -/
theorem C3_witness :
    ((1 : ℤ) ∈ triangleG.nodes) ∧ ((3 : ℤ) ∈ triangleG.nodes)
    ∧ (extract_features triangleG attrsW 1 3).1.getD 5 0 =
        spl_feature_val
          (if triangleG.hasEdge 1 3 then triangleG.removeEdge 1 3 else triangleG) 1 3 :=
  ⟨by decide, by decide, C3_leakage_safe.1 triangleG attrsW 1 3 (by decide) (by decide)⟩

/-- C4 (code bug): the spec asserts SharedNeighborsRatio equals the Jaccard
component for every pair of present nodes.  On the graph with a self-loop at
1 and the edge `(1,2)`, the no-path outcome of the shortest-path query skips
the edge restore, so the ratio is computed on the mutilated graph: the
Jaccard component is `1/2` while SharedNeighborsRatio is `0`. -/
theorem C4_snr_jaccard_bug :
    (extract_features loopG attrs0 1 2).1.getD 1 0 = 1 / 2
    ∧ (extract_features loopG attrs0 1 2).1.getD 9 0 = 0
    ∧ (extract_features loopG attrs0 1 2).1.getD 1 0
        ≠ (extract_features loopG attrs0 1 2).1.getD 9 0 := by
  have hg : ¬((1 : ℤ) ∉ loopG.nodes ∨ (2 : ℤ) ∉ loopG.nodes) := by decide
  have h1 : (extract_features loopG attrs0 1 2).1.getD 1 0 = 1 / 2 := by
    unfold extract_features
    rw [if_neg hg]
    show custom_jaccard_coefficient loopG 1 2 = 1 / 2
    unfold custom_jaccard_coefficient
    rw [(by decide : (loopG.adj 1 ∪ loopG.adj 2).card = 2),
      (by decide : (loopG.adj 1 ∩ loopG.adj 2).card = 1)]
    norm_num
  have h9 : (extract_features loopG attrs0 1 2).1.getD 9 0 = 0 := by
    unfold extract_features
    rw [if_neg hg]
    show shared_neighbors_ratio (spl_block loopG 1 2).2 1 2 = 0
    have hblk : (spl_block loopG 1 2).2 = loopG.removeEdge 1 2 := by
      unfold spl_block
      rw [(by decide : loopG.hasEdge 1 2 = true), if_pos rfl,
        (by decide : shortest_path_length (loopG.removeEdge 1 2) 1 2 = none)]
    rw [hblk]
    unfold shared_neighbors_ratio
    rw [(by decide : ((loopG.removeEdge 1 2).adj 1).card = 1),
      (by decide : ((loopG.removeEdge 1 2).adj 2).card = 0),
      (by decide : ((loopG.removeEdge 1 2).adj 1 ∩ (loopG.removeEdge 1 2).adj 2).card = 0)]
    norm_num
  refine ⟨h1, h9, ?_⟩
  rw [h1, h9]
  norm_num

/-- C5: for a symmetric graph, every component of the feature vector for
`(a,b)` equals the corresponding component for `(b,a)`. -/
theorem C5_extract_symm (g : Graph) (attrs : AttrTable) (a b : ℤ)
    (hSym : ∀ x y, y ∈ g.adj x ↔ x ∈ g.adj y) :
    (extract_features g attrs a b).1 = (extract_features g attrs b a).1 := by
  unfold extract_features
  by_cases hg : a ∉ g.nodes ∨ b ∉ g.nodes
  · rw [if_pos hg, if_pos (Or.symm hg)]
  · rw [if_neg hg, if_neg fun hc => hg (Or.symm hc)]
    obtain ⟨hfst, hadj⟩ := spl_block_symm hSym a b
    simp only [List.cons.injEq, and_true]
    refine ⟨?_, ?_, ?_, ?_, ?_, ?_, ?_, ?_, ?_, ?_⟩
    · rw [commonNeighbors_symm]
    · exact custom_jaccard_coefficient_symm g a b
    · rw [mul_comm]
    · exact custom_adamic_adar_index_symm g a b
    · exact custom_resource_allocation_index_symm g a b
    · exact hfst
    · rw [attr_block_symm]
    · rw [attr_block_symm]
    · rw [attr_block_symm]
    · rw [shared_neighbors_ratio_congr hadj a b, shared_neighbors_ratio_symm]

/-- Witness for C5 on a concrete symmetric graph. -/
theorem C5_witness :
    (∀ x y : ℤ, y ∈ pathG2.adj x ↔ x ∈ pathG2.adj y)
    ∧ (extract_features pathG2 attrsW 1 2).1 = (extract_features pathG2 attrsW 2 1).1 :=
  ⟨pathG2_symm, C5_extract_symm pathG2 attrsW 1 2 pathG2_symm⟩
